import Mathlib

/-!
Shallow embedding of the Wendy fairness core (repository zuluprotocol/wendy).

The Wendy aggregate state and its operations are translated from
src/core/core.go.  The per-validator sender log (Seen, Before, AddVote,
UpdateTxSet), the Quorum constant and the blocking-set builder are part of
this repository but their source files are not under src/ (only their tests
and callers are); those parts are modelled from the specification, as marked
by doc comments starting with "Modelled from the spec:".

Machine integers: Go's uint64 sequence numbers and int counters are modelled
as Nat (no operation here can overflow or go negative except HonestMajority,
which is modelled as Int).  Go's float64 quorum computation
int(math.Floor(float64(n)*Quorum)+1) with Quorum = 2/3 is modelled in exact
arithmetic as 2*n/3 + 1 (Nat division).
-/

namespace Wendy2Proof

/-- Opaque transaction hash (Go: [32]byte); modelled as a string. -/
abbrev Hash := String

/-- Validator identifier (Go: ID / Pubkey / Validator, the same key space). -/
abbrev ID := String

abbrev Validator := ID

/-- Go interface Tx: produces a hash and a raw byte body (size accounting).
The optional debug label is not part of the data model. -/
structure Tx where
  bytes : String
  hash : Hash
deriving DecidableEq, Repr

/-- Go struct Vote: tuple (pubkey, seq, tx_hash). -/
structure Vote where
  Pubkey : ID
  Seq : Nat
  TxHash : Hash
deriving DecidableEq, Repr

/-- Block: a container exposing the list of its transactions. -/
structure Block where
  Txs : List Tx
deriving DecidableEq, Repr

/-- Modelled from the spec: the per-validator sender log (sender source file
absent from src/).  `votes` is the sparse mapping seq -> tx hash; the spec's
`by_hash` index is the inverse lookup over the same entries, so a single
association list carries both.  `committed` records hashes moved out of the
vote log by UpdateTxSet; the gap test of `Before` counts seqs "present in
votes ∪ committed", so a committed entry retains the seq it had in the vote
log (`none` for a block hash this sender never voted on). -/
structure Sender where
  id : ID
  votes : List (Nat × Hash)
  committed : List (Hash × Option Nat)
deriving DecidableEq, Repr

def NewSender (id : ID) : Sender := ⟨id, [], []⟩

/-- All seqs present in votes ∪ committed (the gap test's universe). -/
def Sender.seqList (s : Sender) : List Nat :=
  s.votes.map (fun e => e.1) ++ s.committed.filterMap (fun e => e.2)

/-- All hashes this sender has a record of (by_hash keys ∪ committed keys). -/
def Sender.hashList (s : Sender) : List Hash :=
  s.votes.map (fun e => e.2) ++ s.committed.map (fun e => e.1)

def Sender.present (s : Sender) (q : Nat) : Bool :=
  s.seqList.contains q

def Sender.maxSeq (s : Sender) : Nat :=
  s.seqList.foldr max 0

/-- Modelled from the spec: Seen(tx) is true iff tx's hash is in by_hash or
in committed. -/
def Sender.Seen (s : Sender) (tx : Tx) : Bool :=
  s.hashList.contains tx.hash

/-- The seq at which a hash was seen: the by_hash index, falling back to the
seq retained by a committed entry. -/
def Sender.seenSeq (s : Sender) (h : Hash) : Option Nat :=
  match s.votes.find? (fun e => e.2 = h) with
  | some e => some e.1
  | none =>
    match s.committed.find? (fun e => e.1 = h) with
    | some e => e.2
    | none => none

/-- Scan forward from `k` while `p` holds, for at most `fuel` steps; returns
the first index where `p` fails (or `k + fuel`). -/
def contigFrom (p : Nat → Bool) : Nat → Nat → Nat
  | k, 0 => k
  | k, fuel + 1 => if p k then contigFrom p (k + 1) fuel else k

/-- Modelled from the spec: the contiguous-prefix high water of a sender,
the largest seq k such that all seqs 0..k are present in votes ∪ committed;
`none` when seq 0 itself is absent. -/
def Sender.hw (s : Sender) : Option Nat :=
  let m := contigFrom s.present 0 (s.maxSeq + 2)
  if m = 0 then none else some (m - 1)

/-- Modelled from the spec: Before(tx1, tx2) under the gap test.  False when
tx1 has no recorded seq; when tx2 is seen at s2 it is seq(tx1) < s2; when
tx2 is unseen it is seq(tx1) ≤ contiguous_prefix_high_water. -/
def Sender.Before (s : Sender) (tx1 tx2 : Tx) : Bool :=
  match s.seenSeq tx1.hash with
  | none => false
  | some s1 =>
    match s.seenSeq tx2.hash with
    | some s2 => decide (s1 < s2)
    | none =>
      match s.hw with
      | none => false
      | some k => decide (s1 ≤ k)

/-- Modelled from the spec: Sender.AddVote inserts (seq, hash) and returns
true iff the entry is new — a vote whose seq or hash is already present in
the sender's record (its live vote log or its committed entries, which
remain the record of entries once held) is rejected without mutation;
this covers both duplicate and equivocating votes. -/
def Sender.addVote (s : Sender) (v : Vote) : Sender × Bool :=
  if s.seqList.contains v.Seq || s.hashList.contains v.TxHash then
    (s, false)
  else
    ({ s with votes := (v.Seq, v.TxHash) :: s.votes }, true)

/-- Modelled from the spec: move one hash from votes/by_hash into committed
(keeping its seq for the gap test); a hash the sender never voted on is
still recorded as committed, so that Seen becomes true for it.  Idempotent. -/
def Sender.commitHash (s : Sender) (h : Hash) : Sender :=
  if s.committed.any (fun e => e.1 = h) then s
  else
    { s with
      votes := s.votes.filter (fun e => !(decide (e.2 = h)))
      committed := (h, (s.votes.find? (fun e => e.2 = h)).map (fun e => e.1)) :: s.committed }

/-- Modelled from the spec: UpdateTxSet(committedHashes...) over a block's
transactions. -/
def Sender.updateTxSet (s : Sender) (txs : List Tx) : Sender :=
  txs.foldl (fun acc tx => acc.commitHash tx.hash) s

/-- Association-list lookup (first entry wins), the model of a Go map read. -/
def lookupA {α : Type} : List (ID × α) → ID → Option α
  | [], _ => none
  | (k, a) :: rest, k' => if k = k' then some a else lookupA rest k'

/-- Association-list insertion replacing an existing key, the model of a Go
map write. -/
def insertA {α : Type} : List (ID × α) → ID → α → List (ID × α)
  | [], k, a => [(k, a)]
  | (k', a') :: rest, k, a =>
    if k' = k then (k, a) :: rest else (k', a') :: insertA rest k a

/-- The Wendy aggregate state (core.go, struct Wendy).  Maps are modelled as
association lists in insertion order; the mutexes guard concurrent access
and have no sequential content. -/
structure Wendy where
  validators : List Validator
  quorum : Nat
  txs : List (Hash × Tx)
  votes : List (Hash × Vote)
  senders : List (ID × Sender)
deriving DecidableEq, Repr

/-- core.go New(): empty maps, zero quorum. -/
def New : Wendy := ⟨[], 0, [], [], []⟩

/-- The quorum formula int(math.Floor(float64(n)*Quorum)+1) with Quorum = 2/3,
in exact arithmetic. -/
def quorumOf (n : Nat) : Nat := 2 * n / 3 + 1

/-- core.go UpdateValidatorSet: replace validators, recompute quorum, rebuild
the senders map keeping existing senders for retained IDs. -/
def Wendy.updateValidatorSet (w : Wendy) (vs : List Validator) : Wendy :=
  { w with
    validators := vs
    quorum := quorumOf vs.length
    senders := vs.foldl
      (fun m v => insertA m v ((lookupA w.senders v).getD (NewSender v))) [] }

/-- core.go HonestParties: returns the quorum field. -/
def Wendy.honestParties (w : Wendy) : Nat := w.quorum

/-- core.go HonestMajority: len(validators) - quorum, a Go int (may be
negative). -/
def Wendy.honestMajority (w : Wendy) : Int :=
  (w.validators.length : Int) - (w.quorum : Int)

/-- core.go AddTx: insert into the pool if absent, report whether new. -/
def Wendy.addTx (w : Wendy) (tx : Tx) : Wendy × Bool :=
  match lookupA w.txs tx.hash with
  | some _ => (w, false)
  | none => ({ w with txs := insertA w.txs tx.hash tx }, true)

/-- core.go AddVote: route to the owning sender (creating an ad-hoc one when
the pubkey is unknown), index the vote under its tx hash, return the
sender's was-new flag. -/
def Wendy.addVote (w : Wendy) (v : Vote) : Wendy × Bool :=
  let sender := (lookupA w.senders v.Pubkey).getD (NewSender v.Pubkey)
  let r := sender.addVote v
  ({ w with
      senders := insertA w.senders v.Pubkey r.1
      votes := insertA w.votes v.TxHash v },
    r.2)

/-- core.go CommitBlock: every sender prunes the block's transactions.  The
tx pool is not touched by the source. -/
def Wendy.commitBlock (w : Wendy) (b : Block) : Wendy :=
  { w with senders := w.senders.map (fun e => (e.1, e.2.updateTxSet b.Txs)) }

/-- core.go VoteByTxHash. -/
def Wendy.voteByTxHash (w : Wendy) (h : Hash) : Option Vote :=
  lookupA w.votes h

/-- core.go hasQuorum's counting loop: walk the senders incrementing a
counter on every sender satisfying fn, returning true the moment the counter
reaches the quorum. -/
def hasQuorumAux (q : Nat) (fn : Sender → Bool) : List (ID × Sender) → Nat → Bool
  | [], _ => false
  | e :: rest, c =>
    if fn e.2 then
      if c + 1 = q then true else hasQuorumAux q fn rest (c + 1)
    else hasQuorumAux q fn rest c

/-- core.go hasQuorum. -/
def Wendy.hasQuorum (w : Wendy) (fn : Sender → Bool) : Bool :=
  hasQuorumAux w.quorum fn w.senders 0

/-- core.go IsBlockedBy. -/
def Wendy.isBlockedBy (w : Wendy) (tx1 tx2 : Tx) : Bool :=
  !(w.hasQuorum (fun s => s.Before tx1 tx2))

/-- core.go IsBlocked. -/
def Wendy.isBlocked (w : Wendy) (tx : Tx) : Bool :=
  !(w.hasQuorum (fun s => s.Seen tx))

def Wendy.txList (w : Wendy) : List Tx := w.txs.map (fun e => e.2)

/-- Modelled from the spec: the candidate set C of the blocking-set builder,
the pool transactions that are not IsBlocked (builder source file absent
from src/). -/
def Wendy.candidates (w : Wendy) : List Tx :=
  w.txList.filter (fun tx => !(w.isBlocked tx))

/-- One closure step of the blocking-set builder: adjoin every candidate t
blocking some already-included u (u IsBlockedBy t). -/
def closureStep (w : Wendy) (C cur : List Tx) : List Tx :=
  cur ++ C.filter (fun t => !(cur.contains t) && cur.any (fun u => w.isBlockedBy u t))

def closureIter (w : Wendy) (C : List Tx) : Nat → List Tx → List Tx
  | 0, cur => cur
  | n + 1, cur => closureIter w C n (closureStep w C cur)

/-- Modelled from the spec: BlockingSet() maps each candidate tx to the
transitive set of candidates that block it (tx itself included); the spec
describes the value as the closure of the IsBlockedBy relation over C, so a
full fairness cycle is mapped to itself in every entry.  Iterating the step
|C| times reaches the fixpoint. -/
def Wendy.blockingSet (w : Wendy) : List (Hash × List Tx) :=
  let C := w.candidates
  C.map (fun tx => (tx.hash, closureIter w C C.length [tx]))

/-- The Go type BlockingSet, a map Hash -> []Tx, as an association list. -/
abbrev BlockingSet := List (Hash × List Tx)

/-- Go struct NewBlockOptions; a zero field means the limit is not set. -/
structure NewBlockOptions where
  TxLimit : Nat
  MaxBlockSize : Nat
deriving DecidableEq, Repr

/-- Lexicographic comparison of character lists; used instead of the String
order so the comparison computes in the kernel. -/
def charListLe : List Char → List Char → Bool
  | [], _ => true
  | _ :: _, [] => false
  | a :: as, b :: bs =>
    if a < b then true else if b < a then false else charListLe as bs

/-- The deterministic tie-breaking order of block assembly: lexicographic by
hash, then by body, a total order on the transaction data. -/
def txLeB (a b : Tx) : Bool :=
  if a.hash.data = b.hash.data then charListLe a.bytes.data b.bytes.data
  else charListLe a.hash.data b.hash.data

def txLe (a b : Tx) : Prop := txLeB a b = true

instance : DecidableRel txLe := fun a b => by
  unfold txLe
  infer_instance

def sortTxs (l : List Tx) : List Tx := l.insertionSort txLe

/-- Modelled from the spec: the union of all values of the blocking map, in
the deterministic selection order. -/
def unionTxs (set : BlockingSet) : List Tx :=
  sortTxs (set.flatMap (fun e => e.2)).dedup

/-- Greedy size-capped selection: walk the deterministic order, stopping
before the byte cap would be exceeded. -/
def takeUnderSize (budget : Nat) : List Tx → List Tx
  | [] => []
  | t :: rest =>
    if t.bytes.length ≤ budget then t :: takeUnderSize (budget - t.bytes.length) rest
    else []

/-- Modelled from the spec: BlockingSet.NewBlockWithOptions — take the union
of all values, then apply the optional MaxBlockSize and TxLimit caps in the
deterministic order. -/
def BlockingSet.newBlockWithOptions (set : BlockingSet) (opts : NewBlockOptions) : Block :=
  let u := unionTxs set
  let v := if 0 < opts.MaxBlockSize then takeUnderSize opts.MaxBlockSize u else u
  ⟨if 0 < opts.TxLimit then v.take opts.TxLimit else v⟩

/-- Modelled from the spec: BlockingSet.NewBlock, no limits. -/
def BlockingSet.newBlock (set : BlockingSet) : Block :=
  BlockingSet.newBlockWithOptions set ⟨0, 0⟩

/-! ### Concrete fixtures (mirroring the repository's test data) -/

def txA : Tx := ⟨"tx0", "h0"⟩

def txB : Tx := ⟨"tx1", "h1"⟩

def txF1 : Tx := ⟨"tx1", "hf1"⟩

def txF2 : Tx := ⟨"tx2", "hf2"⟩

def txF3 : Tx := ⟨"tx3", "hf3"⟩

def txF4 : Tx := ⟨"tx4", "hf4"⟩

def txF5 : Tx := ⟨"tx5", "hf5"⟩

def allF : List Tx := [txF1, txF2, txF3, txF4, txF5]

/-- Deliver one validator's whole observation row: AddVote with seqs 0,1,...
followed by AddTx, as the tests' newWendyFromTxsMap does. -/
def voteRow (w : Wendy) (id : ID) (txs : List Tx) : Wendy :=
  (txs.foldl
    (fun p tx => (((p.1.addVote ⟨id, p.2, tx.hash⟩).1.addTx tx).1, p.2 + 1))
    ((w, 0) : Wendy × Nat)).1

/-- The S5 fairness-loop state: 5 validators voting the 5 transactions in the
rotated orders of the classical block-order-fairness matrix. -/
def fairW : Wendy :=
  let w := New.updateValidatorSet ["0x00", "0x01", "0x02", "0x03", "0x04"]
  let w := voteRow w "0x00" [txF1, txF2, txF3, txF4, txF5]
  let w := voteRow w "0x01" [txF2, txF3, txF4, txF5, txF1]
  let w := voteRow w "0x02" [txF3, txF4, txF5, txF1, txF2]
  let w := voteRow w "0x03" [txF4, txF5, txF1, txF2, txF3]
  voteRow w "0x04" [txF5, txF1, txF2, txF3, txF4]

/-- Set equality of transaction lists, as the tests' ElementsMatch. -/
def elemsMatch (l1 l2 : List Tx) : Bool :=
  l1.all (fun t => l2.contains t) && l2.all (fun t => l1.contains t)

/-- Three validators, two of which voted txA at seq 0. -/
def w3two : Wendy :=
  (((New.updateValidatorSet ["a", "b", "c"]).addVote ⟨"a", 0, "h0"⟩).1.addVote
    ⟨"b", 0, "h0"⟩).1

/-- w3two after a vote from "z", which is not a validator. -/
def w3adhoc : Wendy := (w3two.addVote ⟨"z", 0, "h0"⟩).1

/-- One validator that voted txA, with txA in the pool. -/
def c5w : Wendy :=
  (((New.updateValidatorSet ["a"]).addVote ⟨"a", 0, "h0"⟩).1.addTx txA).1

def c5after : Wendy := c5w.commitBlock ⟨[txA]⟩

/-- An empty validator set installed, then an ad-hoc vote accepted. -/
def wEmptyAdhoc : Wendy :=
  ((New.updateValidatorSet []).addVote ⟨"k", 0, "h0"⟩).1

/-! ### The quorum counting loop -/

/-- The number of current senders satisfying Seen(tx). -/
def seenCount (w : Wendy) (tx : Tx) : Nat :=
  w.senders.countP (fun e => e.2.Seen tx)

theorem hasQuorumAux_iff (q : Nat) (fn : Sender → Bool) :
    ∀ (l : List (ID × Sender)) (c : Nat),
      hasQuorumAux q fn l c = true ↔ c < q ∧ q ≤ c + l.countP (fun e => fn e.2)
  | [], c => by
    simp only [hasQuorumAux, List.countP_nil, Bool.false_eq_true, false_iff]
    omega
  | e :: rest, c => by
    simp only [hasQuorumAux, List.countP_cons]
    cases h : fn e.2 with
    | false =>
      rw [if_neg (by simp [h])]
      rw [hasQuorumAux_iff q fn rest c]
      simp only [h, if_false_right, and_false, if_neg (Bool.false_ne_true)]
      omega
    | true =>
      rw [if_pos rfl]
      by_cases hq : c + 1 = q
      · simp only [if_pos hq, true_iff, h, eq_self_iff_true, if_true]
        omega
      · rw [if_neg hq, hasQuorumAux_iff q fn rest (c + 1)]
        simp only [h, eq_self_iff_true, if_true]
        omega

theorem hasQuorum_iff (w : Wendy) (fn : Sender → Bool) :
    w.hasQuorum fn = true ↔
      1 ≤ w.quorum ∧ w.quorum ≤ w.senders.countP (fun e => fn e.2) := by
  rw [Wendy.hasQuorum, hasQuorumAux_iff]
  omega

theorem hasQuorum_empty_senders (w : Wendy) (fn : Sender → Bool)
    (h : w.senders = []) : w.hasQuorum fn = false := by
  rw [Wendy.hasQuorum, h]
  rfl

theorem hasQuorum_zero_quorum (w : Wendy) (fn : Sender → Bool)
    (h : w.quorum = 0) : w.hasQuorum fn = false := by
  cases hq : w.hasQuorum fn with
  | false => rfl
  | true =>
    rw [hasQuorum_iff] at hq
    omega

/-! ### C1: duality of IsBlocked -/

/-- C1 (amended): in every state whose quorum is at least 1 — that is, in
every reachable state in which UpdateValidatorSet has been called at least
once — IsBlocked(tx) is true iff fewer than quorum of the current senders
have Seen(tx). -/
theorem isBlocked_iff_fewer_than_quorum (w : Wendy) (tx : Tx)
    (h : 1 ≤ w.quorum) :
    w.isBlocked tx = true ↔ seenCount w tx < w.quorum := by
  rw [Wendy.isBlocked, Bool.not_eq_true', ← Bool.not_eq_true, hasQuorum_iff,
    seenCount]
  omega

/-- C1 witness: in w3two (quorum 3, two Seen votes) txA is blocked and the
Seen count is indeed below quorum. -/
theorem isBlocked_iff_fewer_than_quorum_witness :
    w3two.isBlocked txA = true ↔ seenCount w3two txA < w3two.quorum :=
  isBlocked_iff_fewer_than_quorum w3two txA (by decide)

/-- C1 counterexample: in the reachable fresh state New (no
UpdateValidatorSet yet, quorum field 0) IsBlocked(tx) is true although
"fewer than quorum senders have Seen(tx)" is false (0 < 0 fails), so the
claimed equivalence does not hold in every reachable state. -/
theorem isBlocked_duality_fails_at_fresh_state :
    New.isBlocked txA = true ∧ ¬(seenCount New txA < New.quorum) := by
  exact ⟨by rfl, by decide⟩

/-! ### C5: commit pruning -/

/-- C5: after CommitBlock every sender records the block's transactions as
Seen with their hashes gone from the live vote log (the spec's claim about
senders holds in the model), but the transaction does NOT leave Wendy's tx
pool: core.go's CommitBlock never touches w.txs, contradicting both the
spec's lifecycle sentence and CommitBlock's own comment that the block's
txs are removed from Wendy's internal state. -/
theorem commitBlock_keeps_tx_in_pool :
    (∀ (w : Wendy) (b : Block), (w.commitBlock b).txs = w.txs) ∧
    c5after.senders.all
      (fun e => e.2.Seen txA && e.2.votes.all (fun p => !(decide (p.2 = txA.hash)))) = true ∧
    lookupA c5after.txs txA.hash = some txA :=
  ⟨fun _ _ => rfl, by decide, by decide⟩

/-! ### C10: ad-hoc senders count toward quorum -/

/-- C10: an AddVote from pubkey "z" outside the validator set {a,b,c}
creates an ad-hoc sender that hasQuorum counts like any other, while the
quorum stays derived from the validators alone; the vote flips IsBlocked to
false, and the next UpdateValidatorSet discards the ad-hoc sender, flipping
it back. -/
theorem adhoc_sender_counts_toward_quorum :
    w3two.isBlocked txA = true ∧
    w3adhoc.validators.contains "z" = false ∧
    w3adhoc.quorum = w3two.quorum ∧
    w3adhoc.isBlocked txA = false ∧
    (w3adhoc.updateValidatorSet ["a", "b", "c"]).isBlocked txA = true := by
  decide

end Wendy2Proof

namespace Wendy2Proof

/-! ### C6: validator-set retention -/

theorem lookupA_insertA {α : Type} (m : List (ID × α)) (k k' : ID) (a : α) :
    lookupA (insertA m k a) k' = if k = k' then some a else lookupA m k' := by
  induction m with
  | nil => rfl
  | cons e rest ih =>
    obtain ⟨k0, a0⟩ := e
    by_cases h : k0 = k
    · subst h
      by_cases h2 : k0 = k'
      · subst h2
        simp [insertA, lookupA]
      · simp [insertA, lookupA, h2]
    · simp only [insertA, if_neg h, lookupA, ih]
      by_cases h2 : k = k'
      · subst h2
        simp [if_neg h]
      · simp [h2]

theorem lookupA_foldl_insert (f : ID → Sender) (vs : List ID) (v : ID) :
    ∀ acc : List (ID × Sender),
      lookupA (vs.foldl (fun m u => insertA m u (f u)) acc) v =
        if v ∈ vs then some (f v) else lookupA acc v := by
  induction vs with
  | nil => intro acc; simp
  | cons u rest ih =>
    intro acc
    simp only [List.foldl_cons, ih, lookupA_insertA]
    by_cases h : v ∈ rest
    · simp [h]
    · by_cases h2 : u = v
      · subst h2
        simp [h]
      · have h3 : ¬ v = u := fun hvu => h2 hvu.symm
        simp [h, h2, h3, List.mem_cons]

theorem lookupA_updateValidatorSet (w : Wendy) (vs : List Validator) (v : ID) :
    lookupA (w.updateValidatorSet vs).senders v =
      if v ∈ vs then some ((lookupA w.senders v).getD (NewSender v)) else none := by
  rw [Wendy.updateValidatorSet]
  exact lookupA_foldl_insert (fun u => (lookupA w.senders u).getD (NewSender u)) vs v []

/-- C6: after UpdateValidatorSet(vs) the senders map has exactly the IDs of
vs as keys; a validator in both the old and the new set keeps its very
sender object (its vote log untouched); a validator outside vs has no
sender any more. -/
theorem updateValidatorSet_retention (w : Wendy) (vs : List Validator) (v : ID) :
    ((lookupA (w.updateValidatorSet vs).senders v).isSome = decide (v ∈ vs)) ∧
    (v ∈ vs → ∀ s : Sender, lookupA w.senders v = some s →
      lookupA (w.updateValidatorSet vs).senders v = some s) ∧
    (v ∉ vs → lookupA (w.updateValidatorSet vs).senders v = none) := by
  refine ⟨?_, ?_, ?_⟩
  · rw [lookupA_updateValidatorSet]
    by_cases h : v ∈ vs <;> simp [h]
  · intro h s hs
    rw [lookupA_updateValidatorSet, if_pos h, hs]
    rfl
  · intro h
    rw [lookupA_updateValidatorSet, if_neg h]

/-- C6 witness: from the state w3two whose senders are a, b, c, update to
{a, z}: a keeps its sender object (with its recorded vote), and c is
dropped. -/
theorem updateValidatorSet_retention_witness :
    lookupA (w3two.updateValidatorSet ["a", "z"]).senders "a" =
      some ⟨"a", [(0, "h0")], []⟩ ∧
    lookupA (w3two.updateValidatorSet ["a", "z"]).senders "c" = none := by
  constructor
  · exact (updateValidatorSet_retention w3two ["a", "z"] "a").2.1 (by decide)
      ⟨"a", [(0, "h0")], []⟩ (by decide)
  · exact (updateValidatorSet_retention w3two ["a", "z"] "c").2.2 (by decide)

/-! ### C7: quorum recomputation and the empty validator set -/

/-- C7 (amended): for every installed validator set, HonestParties is
floor(|vs| * 2/3) + 1 in exact arithmetic (hence 1 when vs is empty) and
HonestMajority is |vs| - quorum; the quorum predicates never hold while the
quorum field is 0 (the fresh state) or while no senders are registered (in
particular every tx is blocked in a fresh core and right after installing an
empty validator set) — but an empty validator set does NOT by itself keep
the predicates false once an ad-hoc vote has been accepted. -/
theorem quorum_formula_and_empty_set_safety :
    (∀ (w : Wendy) (vs : List Validator),
      (w.updateValidatorSet vs).honestParties = 2 * vs.length / 3 + 1 ∧
      (w.updateValidatorSet vs).honestMajority =
        (vs.length : Int) - ((2 * vs.length / 3 + 1 : Nat) : Int)) ∧
    (∀ (w : Wendy) (fn : Sender → Bool), w.quorum = 0 → w.hasQuorum fn = false) ∧
    (∀ (w : Wendy) (fn : Sender → Bool), w.senders = [] → w.hasQuorum fn = false) ∧
    (∀ tx : Tx, New.isBlocked tx = true) ∧
    (∀ tx : Tx, (New.updateValidatorSet []).isBlocked tx = true) := by
  refine ⟨fun w vs => ⟨rfl, rfl⟩, hasQuorum_zero_quorum, hasQuorum_empty_senders,
    fun tx => ?_, fun tx => ?_⟩
  · rw [Wendy.isBlocked, hasQuorum_zero_quorum New _ rfl]
    rfl
  · rw [Wendy.isBlocked, hasQuorum_empty_senders (New.updateValidatorSet []) _ rfl]
    rfl

/-- C7 witness: the predicate parts applied at the fresh state. -/
theorem quorum_formula_and_empty_set_safety_witness :
    New.hasQuorum (fun _ => true) = false ∧
    (New.updateValidatorSet ["a"]).honestParties = 2 * 1 / 3 + 1 :=
  ⟨quorum_formula_and_empty_set_safety.2.1 New (fun _ => true) rfl,
    (quorum_formula_and_empty_set_safety.1 New ["a"]).1⟩

/-- C7 counterexample: with the validator set empty (installed via
UpdateValidatorSet, so quorum = 1) a single ad-hoc AddVote from a
non-validator makes IsBlocked(txA) false — the quorum predicates do hold in
a reachable empty-validator-set state, refuting "the quorum predicates never
hold whenever the validator set is empty". -/
theorem empty_validator_set_predicate_holds :
    wEmptyAdhoc.validators = [] ∧ wEmptyAdhoc.isBlocked txA = false := by
  decide

end Wendy2Proof

namespace Wendy2Proof

/-! ### C4: the S5 fairness loop -/

set_option maxRecDepth 10000

/-- C4 counterexample: in the S5 fairness-loop state, IsBlockedBy(tx1, tx2)
is false (four of five senders witnessed tx1 before tx2, and the quorum is
4), so "IsBlockedBy(tx_i, tx_{i+1 mod 5}) is true for every pair along the
cycle" fails at i = 1. -/
theorem fairness_loop_direction_fails :
    fairW.isBlockedBy txF1 txF2 = false := by
  decide

/-- C4 (amended): in the S5 fairness-loop state the blocking runs the other
way round: IsBlockedBy(tx_{i+1 mod 5}, tx_i) is true for every pair along
the cycle (each transaction is blocked by its predecessor in the rotation),
and BlockingSet() maps every one of the five tx hashes to the full set
{tx1..tx5}. -/
theorem fairness_loop_cycle_and_blocking_set :
    (fairW.isBlockedBy txF2 txF1 = true ∧
     fairW.isBlockedBy txF3 txF2 = true ∧
     fairW.isBlockedBy txF4 txF3 = true ∧
     fairW.isBlockedBy txF5 txF4 = true ∧
     fairW.isBlockedBy txF1 txF5 = true) ∧
    ((lookupA fairW.blockingSet "hf1").map (fun l => elemsMatch l allF) = some true ∧
     (lookupA fairW.blockingSet "hf2").map (fun l => elemsMatch l allF) = some true ∧
     (lookupA fairW.blockingSet "hf3").map (fun l => elemsMatch l allF) = some true ∧
     (lookupA fairW.blockingSet "hf4").map (fun l => elemsMatch l allF) = some true ∧
     (lookupA fairW.blockingSet "hf5").map (fun l => elemsMatch l allF) = some true) := by
  decide

end Wendy2Proof

namespace Wendy2Proof

/-! ### The contiguous-prefix scan -/

theorem contigFrom_le (p : Nat → Bool) :
    ∀ (fuel k : Nat), contigFrom p k fuel ≤ k + fuel
  | 0, k => by simp [contigFrom]
  | fuel + 1, k => by
    rw [contigFrom]
    by_cases h : p k
    · rw [if_pos h]
      have := contigFrom_le p fuel (k + 1)
      omega
    · rw [if_neg h]
      omega

theorem contigFrom_scanned (p : Nat → Bool) :
    ∀ (fuel k i : Nat), k ≤ i → i < contigFrom p k fuel → p i = true
  | 0, k, i => by
    intro h1 h2
    rw [contigFrom] at h2
    omega
  | fuel + 1, k, i => by
    intro h1 h2
    rw [contigFrom] at h2
    by_cases h : p k
    · rw [if_pos h] at h2
      rcases Nat.eq_or_lt_of_le h1 with he | hlt
      · exact he ▸ h
      · exact contigFrom_scanned p fuel (k + 1) i hlt h2
    · rw [if_neg h] at h2
      omega

theorem contigFrom_stop (p : Nat → Bool) :
    ∀ (fuel k : Nat), contigFrom p k fuel < k + fuel → p (contigFrom p k fuel) = false
  | 0, k => by
    intro h
    rw [contigFrom] at h
    omega
  | fuel + 1, k => by
    intro h
    rw [contigFrom]
    by_cases hp : p k
    · rw [if_pos hp]
      rw [contigFrom, if_pos hp] at h
      exact contigFrom_stop p fuel (k + 1) (by omega)
    · rw [if_neg hp]
      exact Bool.not_eq_true _ ▸ hp

theorem mem_le_foldr_max : ∀ (l : List Nat) (q : Nat), q ∈ l → q ≤ l.foldr max 0
  | [], q => by
    intro h
    exact absurd h (List.not_mem_nil q)
  | a :: l, q => by
    intro h
    rcases List.mem_cons.mp h with he | hm
    · subst he
      exact Nat.le_max_left _ _
    · exact Nat.le_trans (mem_le_foldr_max l q hm) (Nat.le_max_right _ _)

theorem present_iff_mem (s : Sender) (q : Nat) :
    s.present q = true ↔ q ∈ s.seqList := by
  rw [Sender.present]
  exact List.elem_iff

theorem present_le_maxSeq (s : Sender) (q : Nat) (h : s.present q = true) :
    q ≤ s.maxSeq := by
  exact mem_le_foldr_max _ q ((present_iff_mem s q).mp h)

end Wendy2Proof

namespace Wendy2Proof

/-! ### Characterization of the high-water mark -/

theorem hw_run_lt (s : Sender) :
    contigFrom s.present 0 (s.maxSeq + 2) < s.maxSeq + 2 := by
  rcases Nat.lt_or_ge (contigFrom s.present 0 (s.maxSeq + 2)) (s.maxSeq + 2) with h | h
  · exact h
  · have hle := contigFrom_le s.present (s.maxSeq + 2) 0
    have hm : contigFrom s.present 0 (s.maxSeq + 2) = s.maxSeq + 2 := by omega
    have hp : s.present (s.maxSeq + 1) = true :=
      contigFrom_scanned s.present (s.maxSeq + 2) 0 (s.maxSeq + 1) (by omega) (by omega)
    have := present_le_maxSeq s (s.maxSeq + 1) hp
    omega

theorem hw_spec (s : Sender) (k : Nat) :
    s.hw = some k ↔
      ((∀ i, i ≤ k → s.present i = true) ∧ s.present (k + 1) = false) := by
  have hlt := hw_run_lt s
  have hstop := contigFrom_stop s.present (s.maxSeq + 2) 0 (by omega)
  constructor
  · intro h
    rw [Sender.hw] at h
    by_cases hm : contigFrom s.present 0 (s.maxSeq + 2) = 0
    · simp [hm] at h
    · rw [if_neg hm] at h
      have hk : contigFrom s.present 0 (s.maxSeq + 2) = k + 1 := by
        have := Option.some.inj h
        omega
      constructor
      · intro i hi
        exact contigFrom_scanned s.present (s.maxSeq + 2) 0 i (Nat.zero_le i) (by omega)
      · rw [← hk]
        exact hstop
  · rintro ⟨hall, hfail⟩
    have hup : contigFrom s.present 0 (s.maxSeq + 2) ≤ k + 1 := by
      rcases Nat.lt_or_ge (k + 1) (contigFrom s.present 0 (s.maxSeq + 2)) with h2 | h2
      · have := contigFrom_scanned s.present (s.maxSeq + 2) 0 (k + 1) (by omega) h2
        rw [this] at hfail
        cases hfail
      · exact h2
    have hdown : k + 1 ≤ contigFrom s.present 0 (s.maxSeq + 2) := by
      rcases Nat.lt_or_ge (contigFrom s.present 0 (s.maxSeq + 2)) (k + 1) with h2 | h2
      · have := hall (contigFrom s.present 0 (s.maxSeq + 2)) (by omega)
        rw [this] at hstop
        cases hstop
      · exact h2
    rw [Sender.hw]
    have hm : contigFrom s.present 0 (s.maxSeq + 2) = k + 1 := by omega
    rw [hm]
    simp

theorem hw_none_iff (s : Sender) : s.hw = none ↔ s.present 0 = false := by
  have hlt := hw_run_lt s
  have hstop := contigFrom_stop s.present (s.maxSeq + 2) 0 (by omega)
  constructor
  · intro h
    rw [Sender.hw] at h
    by_cases hm : contigFrom s.present 0 (s.maxSeq + 2) = 0
    · rw [← hm]
      exact hstop
    · rw [if_neg hm] at h
      cases h
  · intro h
    rw [Sender.hw]
    have hm : contigFrom s.present 0 (s.maxSeq + 2) = 0 := by
      rcases Nat.lt_or_ge 0 (contigFrom s.present 0 (s.maxSeq + 2)) with h2 | h2
      · have := contigFrom_scanned s.present (s.maxSeq + 2) 0 0 (by omega) h2
        rw [this] at h
        cases h
      · omega
    rw [hm]
    rfl

theorem hw_all_present (s : Sender) (k : Nat) (h : s.hw = some k) :
    ∀ i, i ≤ k → s.present i = true :=
  ((hw_spec s k).mp h).1

theorem hw_ge_of_all_present (t : Sender) (k : Nat)
    (h : ∀ i, i ≤ k → t.present i = true) :
    ∃ kt, t.hw = some kt ∧ k ≤ kt := by
  cases hh : t.hw with
  | none =>
    have := (hw_none_iff t).mp hh
    rw [h 0 (Nat.zero_le k)] at this
    cases this
  | some kt =>
    refine ⟨kt, rfl, ?_⟩
    rcases Nat.lt_or_ge kt k with h2 | h2
    · have hf := ((hw_spec t kt).mp hh).2
      rw [h (kt + 1) (by omega)] at hf
      cases hf
    · omega

/-! ### Relating Seen, seenSeq and the hash record -/

theorem seenSeq_mem_hashList (s : Sender) (h : Hash) (s1 : Nat)
    (hs : s.seenSeq h = some s1) : h ∈ s.hashList := by
  rw [Sender.seenSeq] at hs
  cases hv : s.votes.find? (fun e => e.2 = h) with
  | some e =>
    have := List.find?_some hv
    have hm := List.mem_of_find?_eq_some hv
    rw [Sender.hashList]
    refine List.mem_append_left _ ?_
    refine List.mem_map.mpr ⟨e, hm, ?_⟩
    exact of_decide_eq_true this
  | none =>
    rw [hv] at hs
    cases hc : s.committed.find? (fun e => e.1 = h) with
    | some e =>
      have := List.find?_some hc
      have hm := List.mem_of_find?_eq_some hc
      rw [Sender.hashList]
      refine List.mem_append_right _ ?_
      refine List.mem_map.mpr ⟨e, hm, ?_⟩
      exact of_decide_eq_true this
    | none =>
      rw [hc] at hs
      cases hs

theorem seenSeq_none_of_not_seen (s : Sender) (tx : Tx)
    (hs : s.Seen tx = false) : s.seenSeq tx.hash = none := by
  cases h : s.seenSeq tx.hash with
  | none => rfl
  | some s1 =>
    have hm := seenSeq_mem_hashList s tx.hash s1 h
    have hc : s.hashList.contains tx.hash = true := List.elem_iff.mpr hm
    rw [Sender.Seen, hc] at hs
    cases hs

/-! ### C3: the Before predicate under the gap test -/

/-- C3: Before(tx1, tx2) is false when tx1 is not Seen; when both have
recorded seqs it is exactly seq(tx1) < seq(tx2); when tx2 has no recorded
seq it holds exactly when tx1 has a recorded seq below which no gap exists
(every seq 0..seq(tx1) is present in votes ∪ committed, i.e. seq(tx1) is at
most the contiguous-prefix high water); and the high water is precisely the
largest k with all of 0..k present. -/
theorem before_characterization (s : Sender) (tx1 tx2 : Tx) :
    (s.Seen tx1 = false → s.Before tx1 tx2 = false) ∧
    (∀ s1 s2 : Nat, s.seenSeq tx1.hash = some s1 → s.seenSeq tx2.hash = some s2 →
      (s.Before tx1 tx2 = true ↔ s1 < s2)) ∧
    (s.seenSeq tx2.hash = none →
      (s.Before tx1 tx2 = true ↔
        ∃ s1, s.seenSeq tx1.hash = some s1 ∧ ∀ i, i ≤ s1 → s.present i = true)) ∧
    (∀ k : Nat, s.hw = some k ↔
      ((∀ i, i ≤ k → s.present i = true) ∧ s.present (k + 1) = false)) := by
  refine ⟨?_, ?_, ?_, hw_spec s⟩
  · intro hs
    rw [Sender.Before, seenSeq_none_of_not_seen s tx1 hs]
  · intro s1 s2 h1 h2
    rw [Sender.Before, h1, h2]
    exact decide_eq_true_iff
  · intro h2
    rw [Sender.Before, h2]
    cases h1 : s.seenSeq tx1.hash with
    | none =>
      simp only [Bool.false_eq_true, false_iff]
      rintro ⟨s1, hs1, _⟩
      cases hs1
    | some s1 =>
      cases hh : s.hw with
      | none =>
        simp only [Bool.false_eq_true, false_iff]
        rintro ⟨s1', hs1, hall⟩
        have h0 := hall 0 (Nat.zero_le _)
        rw [(hw_none_iff s).mp hh] at h0
        cases h0
      | some k =>
        rw [decide_eq_true_iff]
        constructor
        · intro hle
          exact ⟨s1, rfl, fun i hi => hw_all_present s k hh i (Nat.le_trans hi hle)⟩
        · rintro ⟨s1', hs1, hall⟩
          have hse : s1' = s1 := (Option.some.inj hs1).symm
          subst hse
          obtain ⟨kt, hkt, hge⟩ := hw_ge_of_all_present s s1' hall
          rw [hh] at hkt
          have := Option.some.inj hkt
          omega

/-- C3 witness: a sender with votes at seqs 0 and 1: Before is false for an
unseen tx1, true for (seq 0, seq 1), true against an unseen tx2 with a
gap-free prefix, and the high water is 1. -/
theorem before_characterization_witness :
    ((⟨"a", [(0, "h0"), (1, "h1")], []⟩ : Sender).Before ⟨"z", "hz"⟩ txB = false) ∧
    ((⟨"a", [(0, "h0"), (1, "h1")], []⟩ : Sender).Before txA txB = true) ∧
    ((⟨"a", [(0, "h0"), (1, "h1")], []⟩ : Sender).Before txA ⟨"z", "hz"⟩ = true) ∧
    ((⟨"a", [(0, "h0"), (1, "h1")], []⟩ : Sender).hw = some 1) := by
  refine ⟨?_, ?_, ?_, ?_⟩
  · exact (before_characterization ⟨"a", [(0, "h0"), (1, "h1")], []⟩ ⟨"z", "hz"⟩ txB).1
      (by decide)
  · exact ((before_characterization ⟨"a", [(0, "h0"), (1, "h1")], []⟩ txA txB).2.1
      0 1 (by decide) (by decide)).mpr (by decide)
  · exact ((before_characterization ⟨"a", [(0, "h0"), (1, "h1")], []⟩ txA ⟨"z", "hz"⟩).2.2.1
      (by decide)).mpr ⟨0, by decide, fun i hi => by interval_cases i; decide⟩
  · exact ((before_characterization ⟨"a", [(0, "h0"), (1, "h1")], []⟩ txA txB).2.2.2 1).mpr
      ⟨fun i hi => by interval_cases i <;> decide, by decide⟩

end Wendy2Proof

namespace Wendy2Proof

/-! ### C2: monotonicity of IsBlockedBy under AddVote -/

theorem seqList_insert (s : Sender) (q : Nat) (hsh : Hash) :
    ({ s with votes := (q, hsh) :: s.votes } : Sender).seqList = q :: s.seqList := by
  rfl

theorem seenSeq_insert_other (s : Sender) (q : Nat) (hsh : Hash) (h : Hash)
    (hne : ¬ hsh = h) :
    ({ s with votes := (q, hsh) :: s.votes } : Sender).seenSeq h = s.seenSeq h := by
  rw [Sender.seenSeq, Sender.seenSeq]
  rw [List.find?_cons_of_neg _ (by simpa using hne)]

theorem seenSeq_insert_self (s : Sender) (q : Nat) (hsh : Hash) :
    ({ s with votes := (q, hsh) :: s.votes } : Sender).seenSeq hsh = some q := by
  rw [Sender.seenSeq]
  rw [List.find?_cons_of_pos _ (by simp)]

theorem present_insert_mono (s : Sender) (q : Nat) (hsh : Hash) (i : Nat)
    (h : s.present i = true) :
    ({ s with votes := (q, hsh) :: s.votes } : Sender).present i = true := by
  rw [Sender.present, seqList_insert]
  rw [present_iff_mem] at h
  exact List.elem_iff.mpr (List.mem_cons_of_mem q h)

theorem not_mem_of_contains_false {l : List Hash} {h : Hash}
    (hc : l.contains h = false) : h ∉ l := by
  intro hm
  have ht : l.contains h = true := List.elem_iff.mpr hm
  exact Bool.noConfusion (ht.symm.trans hc)

theorem not_present_of_contains_false (s : Sender) (q : Nat)
    (hc : s.seqList.contains q = false) : s.present q = false := by
  rw [Sender.present, hc]

theorem before_mono_insert (s : Sender) (q : Nat) (hsh : Hash) (a b : Tx)
    (hq : s.seqList.contains q = false) (hh : s.hashList.contains hsh = false)
    (hb : s.Before a b = true) :
    ({ s with votes := (q, hsh) :: s.votes } : Sender).Before a b = true := by
  rw [Sender.Before] at hb
  cases ha : s.seenSeq a.hash with
  | none =>
    rw [ha] at hb
    cases hb
  | some s1 =>
    rw [ha] at hb
    have hane : ¬ hsh = a.hash := by
      intro he
      exact not_mem_of_contains_false hh (he ▸ seenSeq_mem_hashList s a.hash s1 ha)
    rw [Sender.Before, seenSeq_insert_other s q hsh a.hash hane, ha]
    cases hb2 : s.seenSeq b.hash with
    | some s2 =>
      rw [hb2] at hb
      have hbne : ¬ hsh = b.hash := by
        intro he
        exact not_mem_of_contains_false hh (he ▸ seenSeq_mem_hashList s b.hash s2 hb2)
      rw [seenSeq_insert_other s q hsh b.hash hbne, hb2]
      exact hb
    | none =>
      rw [hb2] at hb
      cases hhw : s.hw with
      | none =>
        rw [hhw] at hb
        cases hb
      | some k =>
        rw [hhw] at hb
        have hs1k : s1 ≤ k := of_decide_eq_true hb
        have hqk : k < q := by
          rcases Nat.lt_or_ge k q with h2 | h2
          · exact h2
          · have := hw_all_present s k hhw q h2
            rw [not_present_of_contains_false s q hq] at this
            cases this
        by_cases hbh : hsh = b.hash
        · rw [← hbh, seenSeq_insert_self s q hsh]
          exact decide_eq_true_iff.mpr (by omega)
        · rw [seenSeq_insert_other s q hsh b.hash hbh, hb2]
          have hall : ∀ i, i ≤ k →
              ({ s with votes := (q, hsh) :: s.votes } : Sender).present i = true :=
            fun i hi => present_insert_mono s q hsh i (hw_all_present s k hhw i hi)
          obtain ⟨kt, hkt, hge⟩ :=
            hw_ge_of_all_present ({ s with votes := (q, hsh) :: s.votes }) k hall
          rw [hkt]
          exact decide_eq_true_iff.mpr (by omega)

theorem before_mono_addVote (s : Sender) (v : Vote) (a b : Tx)
    (h : s.Before a b = true) : ((s.addVote v).1).Before a b = true := by
  rw [Sender.addVote]
  cases hq : s.seqList.contains v.Seq with
  | true => simpa using h
  | false =>
    cases hh : s.hashList.contains v.TxHash with
    | true => simpa using h
    | false =>
      simp only [Bool.or_self, Bool.false_eq_true, if_false]
      exact before_mono_insert s v.Seq v.TxHash a b hq hh h

theorem countP_le_insertA (p : Sender → Bool) :
    ∀ (m : List (ID × Sender)) (k : ID) (s' : Sender),
      (∀ s, lookupA m k = some s → p s = true → p s' = true) →
      m.countP (fun e => p e.2) ≤ (insertA m k s').countP (fun e => p e.2)
  | [], k, s' => by
    intro _
    exact Nat.zero_le _
  | (k0, a0) :: rest, k, s' => by
    intro hp
    by_cases hk : k0 = k
    · subst hk
      rw [insertA, if_pos rfl, List.countP_cons, List.countP_cons]
      have hl : lookupA ((k0, a0) :: rest) k0 = some a0 := by
        rw [lookupA, if_pos rfl]
      have : (if p a0 then 1 else 0) ≤ (if p s' then 1 else 0) := by
        by_cases hpa : p a0
        · rw [if_pos hpa, if_pos (hp a0 hl hpa)]
        · rw [if_neg hpa]
          omega
      simp only [Bool.decide_eq_true]
      omega
    · rw [insertA, if_neg hk, List.countP_cons, List.countP_cons]
      have hrec := countP_le_insertA p rest k s' (fun s hs hps => hp s (by
        rw [lookupA, if_neg hk]
        exact hs) hps)
      omega

/-- C2: once IsBlockedBy(a, b) has returned false, a subsequent AddVote —
confirming, contradicting or equivocating, from an existing or a new
sender — cannot make it true again, and AddVote leaves the validator set
(and the quorum) unchanged. -/
theorem isBlockedBy_monotone (w : Wendy) (v : Vote) (a b : Tx)
    (h : w.isBlockedBy a b = false) :
    (w.addVote v).1.isBlockedBy a b = false ∧
    (w.addVote v).1.validators = w.validators ∧
    (w.addVote v).1.quorum = w.quorum := by
  rw [Wendy.isBlockedBy] at h
  have hq : w.hasQuorum (fun s => s.Before a b) = true := by
    cases hqq : w.hasQuorum (fun s => s.Before a b) with
    | true => rfl
    | false =>
      rw [hqq] at h
      cases h
  rw [hasQuorum_iff] at hq
  refine ⟨?_, rfl, rfl⟩
  rw [Wendy.isBlockedBy]
  have hq2 : (w.addVote v).1.hasQuorum (fun s => s.Before a b) = true := by
    rw [hasQuorum_iff]
    have hcount : w.senders.countP (fun e => e.2.Before a b) ≤
        ((w.addVote v).1).senders.countP (fun e => e.2.Before a b) := by
      have hstep := countP_le_insertA (fun s => s.Before a b) w.senders v.Pubkey
        (((lookupA w.senders v.Pubkey).getD (NewSender v.Pubkey)).addVote v).1
        (fun s hs hps => by
          simp only [hs, Option.getD_some]
          exact before_mono_addVote s v a b hps)
      exact hstep
    exact ⟨hq.1, Nat.le_trans hq.2 hcount⟩
  rw [hq2]
  rfl

/-- All three validators observed txA at seq 0, then txB at seq 1. -/
def wOrd : Wendy :=
  let w := New.updateValidatorSet ["a", "b", "c"]
  let w := ((w.addVote ⟨"a", 0, "h0"⟩).1.addVote ⟨"a", 1, "h1"⟩).1
  let w := ((w.addVote ⟨"b", 0, "h0"⟩).1.addVote ⟨"b", 1, "h1"⟩).1
  ((w.addVote ⟨"c", 0, "h0"⟩).1.addVote ⟨"c", 1, "h1"⟩).1

/-- C2 witness: all three validators of wOrd saw txA before txB, so
IsBlockedBy(txA, txB) is false; an equivocating reversed vote from "c"
leaves it false and the validator set and quorum unchanged. -/
theorem isBlockedBy_monotone_witness :
    (wOrd.addVote ⟨"c", 0, "h1"⟩).1.isBlockedBy txA txB = false ∧
    (wOrd.addVote ⟨"c", 0, "h1"⟩).1.validators = wOrd.validators ∧
    (wOrd.addVote ⟨"c", 0, "h1"⟩).1.quorum = wOrd.quorum :=
  isBlockedBy_monotone wOrd ⟨"c", 0, "h1"⟩ txA txB (by decide)

end Wendy2Proof

namespace Wendy2Proof

/-! ### C8 and C9: block assembly under limits, deterministically -/

/-- Total byte size of a transaction selection. -/
def txsSize (l : List Tx) : Nat := (l.map (fun t => t.bytes.length)).sum

theorem takeUnderSize_size_le : ∀ (budget : Nat) (l : List Tx),
    txsSize (takeUnderSize budget l) ≤ budget
  | _, [] => Nat.zero_le _
  | budget, t :: rest => by
    rw [takeUnderSize]
    by_cases h : t.bytes.length ≤ budget
    · rw [if_pos h]
      have hrec := takeUnderSize_size_le (budget - t.bytes.length) rest
      simp only [txsSize, List.map_cons, List.sum_cons] at *
      omega
    · rw [if_neg h]
      exact Nat.zero_le _

theorem txsSize_take_le (l : List Tx) (n : Nat) : txsSize (l.take n) ≤ txsSize l := by
  have := List.sum_take_add_sum_drop (l.map (fun t => t.bytes.length)) n
  simp only [txsSize, List.map_take]
  omega

/-- C8: with TxLimit = k alone and at least k transactions in the union of
the blocking map's values, the block holds exactly k transactions, all from
the union; with MaxBlockSize = m alone the summed byte length is at most m;
with both, both caps hold. -/
theorem newBlock_limits (set : BlockingSet) (k m : Nat) :
    (1 ≤ k → k ≤ (unionTxs set).length →
      ((BlockingSet.newBlockWithOptions set ⟨k, 0⟩).Txs.length = k ∧
       (BlockingSet.newBlockWithOptions set ⟨k, 0⟩).Txs.all
         (fun t => (unionTxs set).contains t) = true)) ∧
    (1 ≤ m → txsSize (BlockingSet.newBlockWithOptions set ⟨0, m⟩).Txs ≤ m) ∧
    (1 ≤ k → 1 ≤ m →
      ((BlockingSet.newBlockWithOptions set ⟨k, m⟩).Txs.length ≤ k ∧
       txsSize (BlockingSet.newBlockWithOptions set ⟨k, m⟩).Txs ≤ m)) := by
  refine ⟨fun hk hlen => ?_, fun hm => ?_, fun hk hm => ?_⟩
  · have e1 : (BlockingSet.newBlockWithOptions set ⟨k, 0⟩).Txs = (unionTxs set).take k := by
      rw [BlockingSet.newBlockWithOptions]
      rw [if_neg (by omega : ¬ (0:Nat) < 0), if_pos (by omega : 0 < k)]
    rw [e1]
    constructor
    · rw [List.length_take]
      omega
    · rw [List.all_eq_true]
      intro t ht
      exact List.elem_iff.mpr (List.mem_of_mem_take ht)
  · have e2 : (BlockingSet.newBlockWithOptions set ⟨0, m⟩).Txs =
        takeUnderSize m (unionTxs set) := by
      rw [BlockingSet.newBlockWithOptions]
      rw [if_pos (by omega : 0 < m), if_neg (by omega : ¬ (0:Nat) < 0)]
    rw [e2]
    exact takeUnderSize_size_le m (unionTxs set)
  · have e3 : (BlockingSet.newBlockWithOptions set ⟨k, m⟩).Txs =
        (takeUnderSize m (unionTxs set)).take k := by
      rw [BlockingSet.newBlockWithOptions]
      rw [if_pos (by omega : 0 < m), if_pos (by omega : 0 < k)]
    rw [e3]
    constructor
    · rw [List.length_take]
      omega
    · exact Nat.le_trans (txsSize_take_le _ k) (takeUnderSize_size_le m (unionTxs set))

/-- Two-entry blocking set used to witness the block-assembly claims. -/
def bsEx : BlockingSet := [("h0", [txA]), ("h1", [txB, txA])]

/-- C8 witness: on bsEx, TxLimit 1 yields exactly one tx, MaxBlockSize 3
keeps the block at three bytes or fewer, and both caps hold together. -/
theorem newBlock_limits_witness :
    (BlockingSet.newBlockWithOptions bsEx ⟨1, 0⟩).Txs.length = 1 ∧
    txsSize (BlockingSet.newBlockWithOptions bsEx ⟨0, 3⟩).Txs ≤ 3 ∧
    (BlockingSet.newBlockWithOptions bsEx ⟨1, 3⟩).Txs.length ≤ 1 :=
  ⟨((newBlock_limits bsEx 1 3).1 (by decide) (by decide)).1,
   (newBlock_limits bsEx 1 3).2.1 (by decide),
   ((newBlock_limits bsEx 1 3).2.2 (by decide) (by decide)).1⟩

theorem charListLe_total : ∀ as bs : List Char,
    charListLe as bs = true ∨ charListLe bs as = true
  | [], _ => Or.inl rfl
  | _ :: _, [] => Or.inr rfl
  | a :: as, b :: bs => by
    rw [charListLe, charListLe]
    by_cases h1 : a < b
    · rw [if_pos h1]
      exact Or.inl rfl
    · by_cases h2 : b < a
      · rw [if_neg h1, if_pos h2, if_pos h2]
        exact Or.inr rfl
      · rw [if_neg h1, if_neg h2, if_neg h2, if_neg h1]
        exact charListLe_total as bs

theorem charListLe_trans : ∀ as bs cs : List Char,
    charListLe as bs = true → charListLe bs cs = true → charListLe as cs = true
  | [], _, _ => fun _ _ => rfl
  | _ :: _, [], _ => fun h1 _ => by cases h1
  | _ :: _, _ :: _, [] => fun _ h2 => by cases h2
  | a :: as, b :: bs, c :: cs => fun h1 h2 => by
    rw [charListLe] at h1 h2 ⊢
    by_cases hab : a < b
    · by_cases hbc : b < c
      · rw [if_pos (lt_trans hab hbc)]
      · by_cases hcb : c < b
        · rw [if_neg hbc, if_pos hcb] at h2
          cases h2
        · have hbceq : b = c := le_antisymm (not_lt.mp hcb) (not_lt.mp hbc)
          rw [if_pos (hbceq ▸ hab)]
    · by_cases hba : b < a
      · rw [if_neg hab, if_pos hba] at h1
        cases h1
      · have habeq : a = b := le_antisymm (not_lt.mp hba) (not_lt.mp hab)
        subst habeq
        rw [if_neg hab, if_neg hba] at h1
        by_cases hbc : a < c
        · rw [if_pos hbc]
        · by_cases hcb : c < a
          · rw [if_neg hbc, if_pos hcb] at h2
            cases h2
          · rw [if_neg hbc, if_neg hcb] at h2 ⊢
            exact charListLe_trans as bs cs h1 h2

theorem charListLe_antisymm : ∀ as bs : List Char,
    charListLe as bs = true → charListLe bs as = true → as = bs
  | [], [] => fun _ _ => rfl
  | [], _ :: _ => fun _ h2 => by cases h2
  | _ :: _, [] => fun h1 _ => by cases h1
  | a :: as, b :: bs => fun h1 h2 => by
    rw [charListLe] at h1 h2
    by_cases hab : a < b
    · rw [if_neg (lt_asymm hab), if_pos hab] at h2
      cases h2
    · by_cases hba : b < a
      · rw [if_neg hab, if_pos hba] at h1
        cases h1
      · have habeq : a = b := le_antisymm (not_lt.mp hba) (not_lt.mp hab)
        subst habeq
        rw [if_neg hab, if_neg hba] at h1 h2
        rw [charListLe_antisymm as bs h1 h2]

instance : IsTotal Tx txLe := by
  constructor
  intro a b
  simp only [txLe, txLeB]
  by_cases h : a.hash.data = b.hash.data
  · rw [if_pos h, if_pos h.symm]
    exact charListLe_total _ _
  · rw [if_neg h, if_neg (fun he => h he.symm)]
    exact charListLe_total _ _

instance : IsTrans Tx txLe := by
  constructor
  intro a b c h1 h2
  simp only [txLe, txLeB] at h1 h2 ⊢
  by_cases hab : a.hash.data = b.hash.data
  · by_cases hbc : b.hash.data = c.hash.data
    · rw [if_pos hab] at h1
      rw [if_pos hbc] at h2
      rw [if_pos (hab.trans hbc)]
      exact charListLe_trans _ _ _ h1 h2
    · have hac : ¬ a.hash.data = c.hash.data := fun he => hbc (hab.symm.trans he)
      rw [if_neg hbc] at h2
      rw [if_neg hac, hab]
      exact h2
  · by_cases hbc : b.hash.data = c.hash.data
    · have hac : ¬ a.hash.data = c.hash.data := fun he => hab (he.trans hbc.symm)
      rw [if_neg hab] at h1
      rw [if_neg hac, ← hbc]
      exact h1
    · rw [if_neg hab] at h1
      rw [if_neg hbc] at h2
      by_cases hac : a.hash.data = c.hash.data
      · rw [← hac] at h2
        exact absurd (charListLe_antisymm _ _ h1 h2) hab
      · rw [if_neg hac]
        exact charListLe_trans _ _ _ h1 h2

instance : IsAntisymm Tx txLe := by
  constructor
  intro a b h1 h2
  simp only [txLe, txLeB] at h1 h2
  by_cases hab : a.hash.data = b.hash.data
  · rw [if_pos hab] at h1
    rw [if_pos hab.symm] at h2
    have hb : a.bytes = b.bytes := String.ext (charListLe_antisymm _ _ h1 h2)
    have hh : a.hash = b.hash := String.ext hab
    have he : (⟨a.bytes, a.hash⟩ : Tx) = ⟨b.bytes, b.hash⟩ := by rw [hb, hh]
    exact he
  · rw [if_neg hab] at h1
    rw [if_neg (fun he => hab he.symm)] at h2
    exact absurd (charListLe_antisymm _ _ h1 h2) hab

theorem unionTxs_perm {s1 s2 : BlockingSet} (h : s1.Perm s2) :
    unionTxs s1 = unionTxs s2 := by
  have h1 : (s1.flatMap (fun e => e.2)).Perm (s2.flatMap (fun e => e.2)) :=
    h.flatMap_right _
  have h2 := h1.dedup
  exact List.eq_of_perm_of_sorted
    (((List.perm_insertionSort txLe _).trans h2).trans
      (List.perm_insertionSort txLe _).symm)
    (List.sorted_insertionSort txLe _) (List.sorted_insertionSort txLe _)

/-- C9: block assembly is a function of the blocking-set contents and the
options alone — two blocking sets holding the same entries (in any map
iteration order) yield identical blocks, with and without limits. -/
theorem newBlock_deterministic (s1 s2 : BlockingSet) (opts : NewBlockOptions)
    (h : s1.Perm s2) :
    BlockingSet.newBlockWithOptions s1 opts = BlockingSet.newBlockWithOptions s2 opts ∧
    BlockingSet.newBlock s1 = BlockingSet.newBlock s2 := by
  constructor
  · rw [BlockingSet.newBlockWithOptions, BlockingSet.newBlockWithOptions, unionTxs_perm h]
  · rw [BlockingSet.newBlock, BlockingSet.newBlock,
      BlockingSet.newBlockWithOptions, BlockingSet.newBlockWithOptions, unionTxs_perm h]

/-- bsEx with its two entries swapped. -/
def bsExSwapped : BlockingSet := [("h1", [txB, txA]), ("h0", [txA])]

/-- C9 witness: swapping the two entries of bsEx leaves the assembled block
unchanged. -/
theorem newBlock_deterministic_witness :
    BlockingSet.newBlockWithOptions bsEx ⟨1, 3⟩ =
      BlockingSet.newBlockWithOptions bsExSwapped ⟨1, 3⟩ :=
  (newBlock_deterministic bsEx bsExSwapped ⟨1, 3⟩
    (List.Perm.swap ("h1", [txB, txA]) ("h0", [txA]) [])).1

end Wendy2Proof
